import Mathlib

/-!
# Verification of `flipperpuzzle.py`

A shallow embedding of the pancake-flipping puzzle solver in
`src/flipperpuzzle.py`, together with proofs about the claims of its
specification.

The source program keeps a `Challenge` object with fields
`flipw`, `npan`, `cstate`, `states`, `nflips`, `solution`, and drives it with

* `signs2bool` — parses a sign string, `'+' ↦ True`, `'-' ↦ False`,
  any other character is reported and skipped;
* `Challenge.__init__` — records the parsed state; when the flipper is wider
  than the row it checks `is_solved` once and otherwise marks `-1`;
* `Challenge.is_solved` — returns `True` (setting `solution = nflips`) when
  every pancake is up, and a falsy value otherwise;
* `Challenge.flip_nth` — inverts the `flipw` pancakes starting at the given
  index, or does nothing when the run would fall off the right edge; either
  way a snapshot of `cstate` is appended to `states`;
* `Challenge.dumbsolver` — the while-loop
  `while solution is None: if not is_solved(): flip leftmost False; if not is_solved() and cstate in states[:-1]: solution = -1`.

Python's `solution` field takes the values `None` (unresolved), a
non-negative flip count (solved), or `-1` (impossible); we model it as
`Option Int`.  Machine integers never overflow here (all counts are small
naturals), so `Nat` is used for counts and indices.
-/

/-- The toggle loop of `flip_nth`:
`for ix, pancake in enumerate(self.cstate[nth:nth+self.flipw]): self.cstate[nth+ix] = not pancake`.
The slice is copied before the loop writes back, so the effect is exactly:
invert every entry whose index `p` satisfies `nth ≤ p < nth + w` (and
`p < length`, which the caller's range check guarantees). -/
def flipRange : List Bool → Nat → Nat → List Bool
  | [], _, _ => []
  | b :: rest, n + 1, w => b :: flipRange rest n w
  | b :: rest, 0, 0 => b :: rest
  | b :: rest, 0, w + 1 => (!b) :: flipRange rest 0 w

/-- Python's `cstate.index(False)`: index of the first `False`.  The source
only calls it when a `False` is present; on an all-`True` list it returns the
length (the source would raise, but that call never happens). -/
def indexFalse : List Bool → Nat
  | [] => 0
  | false :: _ => 0
  | true :: rest => indexFalse rest + 1

/-- The state of one puzzle instance: the fields of the Python `Challenge`
object.  `solution` is `none` for Python `None`, `some n` (`n ≥ 0`) for a
recorded flip count, `some (-1)` for impossible. -/
structure Challenge where
  flipw : Nat
  npan : Nat
  cstate : List Bool
  states : List (List Bool)
  nflips : Nat
  solution : Option Int
deriving DecidableEq

/-- `Challenge.is_solved`: returns `True` and records `solution = nflips`
when every entry of `cstate` is true; otherwise returns a falsy value and
changes nothing.  The Python method mutates `self`; we return the pair
(result, updated state). -/
def Challenge.is_solved (c : Challenge) : Bool × Challenge :=
  if c.cstate.all id = true then (true, { c with solution := some (c.nflips : Int) })
  else (false, c)

/-- The body of `Challenge.__init__` after parsing: record the state, then
if the flipper is wider than the row, call `is_solved` and on a falsy result
set `solution = -1`. -/
def Challenge.ofState (flipw : Nat) (s : List Bool) : Challenge :=
  let c : Challenge :=
    { flipw := flipw, npan := s.length, cstate := s,
      states := [s], nflips := 0, solution := none }
  if c.npan < c.flipw then
    (if (c.is_solved).1 then (c.is_solved).2
     else { (c.is_solved).2 with solution := some (-1) })
  else c

/-- `signs2bool` on the character sequence of the input:
`'+' ↦ true`, `'-' ↦ false`, anything else is reported and skipped. -/
def signs2boolList : List Char → List Bool
  | [] => []
  | ch :: rest =>
    if ch = '+' then true :: signs2boolList rest
    else if ch = '-' then false :: signs2boolList rest
    else signs2boolList rest

/-- `signs2bool(signs)` from the source, over a `String`. -/
def signs2bool (signs : String) : List Bool :=
  signs2boolList signs.data

/-- `Challenge.__init__(flipw, start)`: parse the sign string, then set up
the state (the setup itself is `Challenge.ofState`). -/
def Challenge.init (flipw : Nat) (start : String) : Challenge :=
  Challenge.ofState flipw (signs2bool start)

/-- `Challenge.flip_nth(nth)`: if `npan - nth < flipw` (over ℤ; for
natural arguments this is `npan < nth + flipw`) the flip falls off the right
edge and nothing is flipped, otherwise the window is inverted and `nflips`
incremented.  In both cases a snapshot of the (possibly updated) `cstate` is
appended to `states`. -/
def Challenge.flip_nth (c : Challenge) (nth : Nat) : Challenge :=
  if c.npan < nth + c.flipw then
    { c with states := c.states ++ [c.cstate] }
  else
    { c with
      cstate := flipRange c.cstate nth c.flipw,
      nflips := c.nflips + 1,
      states := c.states ++ [flipRange c.cstate nth c.flipw] }

/-- One fuel unit per iteration of the `dumbsolver` while-loop
`while self.solution is None`.  The loop body is
`if not is_solved(): first = cstate.index(False); flip_nth(first);
 if not is_solved() and cstate in states[:-1]: solution = -1`.
Branches that set `solution` return at once, exactly as the loop condition
would then stop the Python loop.  The termination lemmas below (`dsF_term`,
`dsF_of_terminal`, `dsF_mono`) show the fuel used by `Challenge.dumbsolver`
is enough for the loop to reach its terminal state, so the fuel cap is never
the reason the recursion stops. -/
def Challenge.dumbsolverFuel : Nat → Challenge → Challenge
  | 0, c => c
  | fuel + 1, c =>
    if c.solution = none then
      let p1 := c.is_solved
      if p1.1 then p1.2
      else
        let first := indexFalse p1.2.cstate
        let c2 := p1.2.flip_nth first
        let p2 := c2.is_solved
        if p2.1 then p2.2
        else if p2.2.cstate ∈ p2.2.states.dropLast then
          { p2.2 with solution := some (-1) }
        else
          Challenge.dumbsolverFuel fuel p2.2
    else c

/-- `Challenge.dumbsolver`: run the while-loop to completion.  The loop is
modelled with fuel `2 ^ npan + 1`; the termination theorems below prove this
bound is reached only after `solution` is set, so this equals the Python
loop's limit. -/
def Challenge.dumbsolver (c : Challenge) : Challenge :=
  Challenge.dumbsolverFuel (2 ^ c.npan + 1) c

/-- Instrumented copy of `Challenge.dumbsolverFuel` that also records the
index passed to every `flip_nth` invocation, in order.  Its first component
is provably the plain solver (`dumbsolverFuelT_fst`); the trace is used to
reason about which flips the driving algorithm invokes. -/
def Challenge.dumbsolverFuelT : Nat → Challenge → List Nat → Challenge × List Nat
  | 0, c, t => (c, t)
  | fuel + 1, c, t =>
    if c.solution = none then
      let p1 := c.is_solved
      if p1.1 then (p1.2, t)
      else
        let first := indexFalse p1.2.cstate
        let c2 := p1.2.flip_nth first
        let t2 := t ++ [first]
        let p2 := c2.is_solved
        if p2.1 then (p2.2, t2)
        else if p2.2.cstate ∈ p2.2.states.dropLast then
          ({ p2.2 with solution := some (-1) }, t2)
        else
          Challenge.dumbsolverFuelT fuel p2.2 t2
    else (c, t)

/-! ## Specification-side notions for claim C1

A candidate solution is a list of leftmost indices of flips; it solves a
state when every flip stays inside the row and applying them in order turns
every pancake up. -/

/-- Apply a sequence of flips (given by their leftmost indices) of width `w`
to a state. -/
def applyFlips (w : Nat) (s : List Bool) (ws : List Nat) : List Bool :=
  ws.foldl (fun st j => flipRange st j w) s

/-- Every flip of the sequence fits inside a row of `n` pancakes. -/
def ValidStarts (w n : Nat) (ws : List Nat) : Prop :=
  ∀ j ∈ ws, j + w ≤ n

/-- `ws` is a sequence of in-range flips of width `w` that turns `s`
all-up. -/
def Solves (w : Nat) (s : List Bool) (ws : List Nat) : Prop :=
  ValidStarts w s.length ws ∧ (applyFlips w s ws).all id = true

/-- `l₁` is an initial segment of `l₂` (later snapshots extend, never
rewrite, the history). -/
def isInitSeg {α : Type} (l₁ l₂ : List α) : Prop :=
  ∃ t, l₁ ++ t = l₂

/-- Number of flips of `ws` whose width-`w` window covers position `p`.
A position's final orientation is its initial one inverted iff this count is
odd. -/
def flipParity (w : Nat) (ws : List Nat) (p : Nat) : Nat :=
  ws.countP (fun j => decide (j ≤ p ∧ p < j + w))

/-! ## Basic lemmas about `flipRange` and `indexFalse` -/

theorem flipRange_length (s : List Bool) : ∀ n w, (flipRange s n w).length = s.length := by
  induction s with
  | nil => intro n w; rfl
  | cons b rest ih =>
    intro n w
    cases n with
    | succ n => simpa [flipRange] using ih n w
    | zero =>
      cases w with
      | zero => rfl
      | succ w => simpa [flipRange] using ih 0 w

theorem flipRange_getD (s : List Bool) : ∀ n w p, p < s.length →
    (flipRange s n w).getD p false =
      if n ≤ p ∧ p < n + w then !(s.getD p false) else s.getD p false := by
  induction s with
  | nil => intro n w p hp; simp at hp
  | cons b rest ih =>
    intro n w p hp
    cases n with
    | succ n =>
      cases p with
      | zero => simp [flipRange]
      | succ p =>
        have hp' : p < rest.length := by simpa using hp
        have := ih n w p hp'
        simp only [flipRange, List.getD_cons_succ]
        rw [this]
        by_cases h : n ≤ p ∧ p < n + w
        · rw [if_pos h, if_pos (by omega)]
        · rw [if_neg h, if_neg (by omega)]
    | zero =>
      cases w with
      | zero => simp [flipRange]
      | succ w =>
        cases p with
        | zero => simp [flipRange]
        | succ p =>
          have hp' : p < rest.length := by simpa using hp
          have := ih 0 w p hp'
          simp only [flipRange, List.getD_cons_succ]
          rw [this]
          by_cases h : 0 ≤ p ∧ p < 0 + w
          · rw [if_pos h, if_pos (by omega)]
          · rw [if_neg h, if_neg (by omega)]

theorem flipRange_zero_width (s : List Bool) : ∀ n, flipRange s n 0 = s := by
  induction s with
  | nil => intro n; rfl
  | cons b rest ih =>
    intro n
    cases n with
    | succ n => simp [flipRange, ih]
    | zero => rfl

theorem flipRange_flipRange (s : List Bool) :
    ∀ n w, flipRange (flipRange s n w) n w = s := by
  induction s with
  | nil => intro n w; rfl
  | cons b rest ih =>
    intro n w
    cases n with
    | succ n => simp [flipRange, ih]
    | zero =>
      cases w with
      | zero => rfl
      | succ w => simp [flipRange, ih]

theorem indexFalse_lt_length (s : List Bool) (h : s.all id = false) :
    indexFalse s < s.length := by
  induction s with
  | nil => simp at h
  | cons b rest ih =>
    cases b with
    | false => simp [indexFalse]
    | true =>
      have h' : rest.all id = false := by simpa using h
      simpa [indexFalse] using ih h'

theorem getD_indexFalse (s : List Bool) (h : s.all id = false) :
    s.getD (indexFalse s) false = false := by
  induction s with
  | nil => simp at h
  | cons b rest ih =>
    cases b with
    | false => simp [indexFalse]
    | true =>
      have h' : rest.all id = false := by simpa using h
      simpa [indexFalse] using ih h'

theorem getD_of_lt_indexFalse (s : List Bool) :
    ∀ p, p < indexFalse s → s.getD p false = true := by
  induction s with
  | nil => intro p hp; simp [indexFalse] at hp
  | cons b rest ih =>
    intro p hp
    cases b with
    | false => simp [indexFalse] at hp
    | true =>
      cases p with
      | zero => simp
      | succ p =>
        simp only [indexFalse] at hp
        simpa using ih p (by omega)

theorem le_indexFalse_of_getD (s : List Bool) :
    ∀ k, (∀ p, p < k → s.getD p false = true) → k ≤ s.length → k ≤ indexFalse s := by
  induction s with
  | nil =>
    intro k _ hk
    have : k = 0 := by simpa using hk
    simp [this]
  | cons b rest ih =>
    intro k hup hk
    cases k with
    | zero => exact Nat.zero_le _
    | succ k =>
      have hb : b = true := by simpa using hup 0 (by omega)
      subst hb
      have : k ≤ indexFalse rest := by
        refine ih k (fun p hp => ?_) (by simpa using hk)
        simpa using hup (p + 1) (by omega)
      simp only [indexFalse]
      omega

theorem all_getD_of_all (s : List Bool) (h : s.all id = true) :
    ∀ p, p < s.length → s.getD p false = true := by
  induction s with
  | nil => intro p hp; simp at hp
  | cons b rest ih =>
    intro p hp
    rw [List.all_cons, Bool.and_eq_true] at h
    have hb : b = true := h.1
    have h' : rest.all id = true := h.2
    cases p with
    | zero => simpa using hb
    | succ p => simpa using ih h' p (by simpa using hp)

/-! ## Unfolding lemmas for the `Challenge` operations -/

theorem is_solved_of_all (c : Challenge) (h : c.cstate.all id = true) :
    c.is_solved = (true, { c with solution := some (c.nflips : Int) }) := by
  simp [Challenge.is_solved, h]

theorem is_solved_of_not_all (c : Challenge) (h : c.cstate.all id = false) :
    c.is_solved = (false, c) := by
  simp [Challenge.is_solved, h]

theorem ofState_eq (flipw : Nat) (s : List Bool) :
    Challenge.ofState flipw s =
      if s.length < flipw then
        (if s.all id = true then
          { flipw := flipw, npan := s.length, cstate := s,
            states := [s], nflips := 0, solution := some 0 }
         else
          { flipw := flipw, npan := s.length, cstate := s,
            states := [s], nflips := 0, solution := some (-1) })
      else
        { flipw := flipw, npan := s.length, cstate := s,
          states := [s], nflips := 0, solution := none } := by
  by_cases h : s.length < flipw <;> by_cases h2 : s.all id = true <;>
    simp [Challenge.ofState, Challenge.is_solved, h, h2]

theorem ofState_of_le (flipw : Nat) (s : List Bool) (h : flipw ≤ s.length) :
    Challenge.ofState flipw s =
      { flipw := flipw, npan := s.length, cstate := s,
        states := [s], nflips := 0, solution := none } := by
  rw [ofState_eq, if_neg (by omega)]

theorem flip_nth_out (c : Challenge) (nth : Nat) (h : c.npan < nth + c.flipw) :
    c.flip_nth nth = { c with states := c.states ++ [c.cstate] } := by
  simp [Challenge.flip_nth, h]

theorem flip_nth_in (c : Challenge) (nth : Nat) (h : nth + c.flipw ≤ c.npan) :
    c.flip_nth nth =
      { c with
        cstate := flipRange c.cstate nth c.flipw,
        nflips := c.nflips + 1,
        states := c.states ++ [flipRange c.cstate nth c.flipw] } := by
  rw [Challenge.flip_nth, if_neg (by omega)]

theorem flip_nth_flipw (c : Challenge) (nth : Nat) : (c.flip_nth nth).flipw = c.flipw := by
  unfold Challenge.flip_nth
  split <;> rfl

theorem flip_nth_npan (c : Challenge) (nth : Nat) : (c.flip_nth nth).npan = c.npan := by
  unfold Challenge.flip_nth
  split <;> rfl

theorem flip_nth_solution (c : Challenge) (nth : Nat) :
    (c.flip_nth nth).solution = c.solution := by
  unfold Challenge.flip_nth
  split <;> rfl

/-! ## Step lemmas for the solver loop -/

theorem dsF_of_terminal (c : Challenge) (h : c.solution ≠ none) :
    ∀ fuel, Challenge.dumbsolverFuel fuel c = c := by
  intro fuel
  cases fuel with
  | zero => rfl
  | succ fuel => simp [Challenge.dumbsolverFuel, h]

theorem dsF_succ_solved (c : Challenge) (fuel : Nat)
    (hn : c.solution = none) (ha : c.cstate.all id = true) :
    Challenge.dumbsolverFuel (fuel + 1) c = { c with solution := some (c.nflips : Int) } := by
  simp [Challenge.dumbsolverFuel, hn, is_solved_of_all c ha]

theorem dsF_succ_flip_solved (c : Challenge) (fuel : Nat)
    (hn : c.solution = none) (ha : c.cstate.all id = false)
    (h2 : (c.flip_nth (indexFalse c.cstate)).cstate.all id = true) :
    Challenge.dumbsolverFuel (fuel + 1) c =
      { c.flip_nth (indexFalse c.cstate) with
        solution := some (((c.flip_nth (indexFalse c.cstate)).nflips : Int)) } := by
  simp [Challenge.dumbsolverFuel, hn, is_solved_of_not_all c ha,
    is_solved_of_all _ h2]

theorem dsF_succ_flip_repeat (c : Challenge) (fuel : Nat)
    (hn : c.solution = none) (ha : c.cstate.all id = false)
    (h2 : (c.flip_nth (indexFalse c.cstate)).cstate.all id = false)
    (h3 : (c.flip_nth (indexFalse c.cstate)).cstate ∈
            (c.flip_nth (indexFalse c.cstate)).states.dropLast) :
    Challenge.dumbsolverFuel (fuel + 1) c =
      { c.flip_nth (indexFalse c.cstate) with solution := some (-1) } := by
  simp [Challenge.dumbsolverFuel, hn, is_solved_of_not_all c ha,
    is_solved_of_not_all _ h2, h3]

theorem dsF_succ_flip_continue (c : Challenge) (fuel : Nat)
    (hn : c.solution = none) (ha : c.cstate.all id = false)
    (h2 : (c.flip_nth (indexFalse c.cstate)).cstate.all id = false)
    (h3 : (c.flip_nth (indexFalse c.cstate)).cstate ∉
            (c.flip_nth (indexFalse c.cstate)).states.dropLast) :
    Challenge.dumbsolverFuel (fuel + 1) c =
      Challenge.dumbsolverFuel fuel (c.flip_nth (indexFalse c.cstate)) := by
  simp [Challenge.dumbsolverFuel, hn, is_solved_of_not_all c ha,
    is_solved_of_not_all _ h2, h3]

theorem dsF_add (g : Nat) :
    ∀ (f : Nat) (c : Challenge),
      Challenge.dumbsolverFuel (f + g) c =
        Challenge.dumbsolverFuel g (Challenge.dumbsolverFuel f c) := by
  intro f
  induction f with
  | zero => intro c; simp [Challenge.dumbsolverFuel]
  | succ f ih =>
    intro c
    have hfg : f + 1 + g = (f + g) + 1 := by omega
    rw [hfg]
    rcases hsol : c.solution with _ | v
    · by_cases ha : c.cstate.all id = true
      · rw [dsF_succ_solved c (f + g) hsol ha, dsF_succ_solved c f hsol ha,
          dsF_of_terminal _ (by simp) g]
      · have ha' : c.cstate.all id = false := by
          cases h : c.cstate.all id
          · rfl
          · exact absurd h ha
        by_cases h2 : (c.flip_nth (indexFalse c.cstate)).cstate.all id = true
        · rw [dsF_succ_flip_solved c (f + g) hsol ha' h2,
            dsF_succ_flip_solved c f hsol ha' h2, dsF_of_terminal _ (by simp) g]
        · have h2' : (c.flip_nth (indexFalse c.cstate)).cstate.all id = false := by
            cases h : (c.flip_nth (indexFalse c.cstate)).cstate.all id
            · rfl
            · exact absurd h h2
          by_cases h3 : (c.flip_nth (indexFalse c.cstate)).cstate ∈
              (c.flip_nth (indexFalse c.cstate)).states.dropLast
          · rw [dsF_succ_flip_repeat c (f + g) hsol ha' h2' h3,
              dsF_succ_flip_repeat c f hsol ha' h2' h3, dsF_of_terminal _ (by simp) g]
          · rw [dsF_succ_flip_continue c (f + g) hsol ha' h2' h3,
              dsF_succ_flip_continue c f hsol ha' h2' h3]
            exact ih _
    · rw [dsF_of_terminal c (by simp [hsol]) ((f + g) + 1),
        dsF_of_terminal c (by simp [hsol]) (f + 1),
        dsF_of_terminal c (by simp [hsol]) g]

theorem dsF_mono (c : Challenge) (f g : Nat) (hfg : f ≤ g)
    (h : (Challenge.dumbsolverFuel f c).solution ≠ none) :
    Challenge.dumbsolverFuel g c = Challenge.dumbsolverFuel f c := by
  obtain ⟨e, rfl⟩ : ∃ e, g = f + e := ⟨g - f, by omega⟩
  rw [dsF_add e f c]
  exact dsF_of_terminal _ h e

theorem dumbsolverFuelT_fst :
    ∀ (fuel : Nat) (c : Challenge) (t : List Nat),
      (Challenge.dumbsolverFuelT fuel c t).1 = Challenge.dumbsolverFuel fuel c := by
  intro fuel
  induction fuel with
  | zero => intro c t; rfl
  | succ fuel ih =>
    intro c t
    simp only [Challenge.dumbsolverFuelT, Challenge.dumbsolverFuel]
    by_cases hsol : c.solution = none
    · simp only [hsol, if_true]
      by_cases ha : (c.is_solved).1
      · simp [ha]
      · simp only [ha, if_false]
        by_cases h2 : (((c.is_solved).2.flip_nth (indexFalse (c.is_solved).2.cstate)).is_solved).1
        · simp [h2]
        · simp only [h2, if_false]
          by_cases h3 : (((c.is_solved).2.flip_nth (indexFalse (c.is_solved).2.cstate)).is_solved).2.cstate ∈
              (((c.is_solved).2.flip_nth (indexFalse (c.is_solved).2.cstate)).is_solved).2.states.dropLast
          · simp [h3]
          · simp only [h3, if_false]
            exact ih _ _
    · simp [hsol]

/-- Termination of the solving loop: starting from any state whose snapshot
list contains the current state (true from construction on), with enough
fuel the loop ends with `solution` set, either to the current flip count
with everything face-up, or to `-1`. -/
theorem dsF_term :
    ∀ (fuel : Nat) (c : Challenge),
      c.cstate.length = c.npan → c.cstate ∈ c.states → c.solution = none →
      c.npan - indexFalse c.cstate < fuel →
      ((Challenge.dumbsolverFuel fuel c).solution =
          some (((Challenge.dumbsolverFuel fuel c).nflips : Int))
        ∧ (Challenge.dumbsolverFuel fuel c).cstate.all id = true)
      ∨ (Challenge.dumbsolverFuel fuel c).solution = some (-1) := by
  intro fuel
  induction fuel with
  | zero => intro c _ _ _ h; omega
  | succ n ih =>
    intro c hlen hmem hsol hmeas
    by_cases ha : c.cstate.all id = true
    · rw [dsF_succ_solved c n hsol ha]
      exact Or.inl ⟨rfl, ha⟩
    · have ha' : c.cstate.all id = false := by
        cases h : c.cstate.all id
        · rfl
        · exact absurd h ha
      have hidxlt : indexFalse c.cstate < c.npan := by
        have := indexFalse_lt_length c.cstate ha'
        omega
      by_cases hr : c.npan < indexFalse c.cstate + c.flipw
      · -- the flip falls off the edge: it is a no-op, and since the unchanged
        -- snapshot already occurs in `states`, the repeat check fires
        have hflip := flip_nth_out c (indexFalse c.cstate) hr
        have h2 : (c.flip_nth (indexFalse c.cstate)).cstate.all id = false := by
          rw [hflip]; exact ha'
        have h3 : (c.flip_nth (indexFalse c.cstate)).cstate ∈
            (c.flip_nth (indexFalse c.cstate)).states.dropLast := by
          rw [hflip]
          simpa [List.dropLast_concat] using hmem
        rw [dsF_succ_flip_repeat c n hsol ha' h2 h3]
        exact Or.inr rfl
      · have hr' : indexFalse c.cstate + c.flipw ≤ c.npan := by omega
        have hflip := flip_nth_in c (indexFalse c.cstate) hr'
        by_cases h2 : (c.flip_nth (indexFalse c.cstate)).cstate.all id = true
        · rw [dsF_succ_flip_solved c n hsol ha' h2]
          exact Or.inl ⟨rfl, h2⟩
        · have h2' : (c.flip_nth (indexFalse c.cstate)).cstate.all id = false := by
            cases h : (c.flip_nth (indexFalse c.cstate)).cstate.all id
            · rfl
            · exact absurd h h2
          by_cases h3 : (c.flip_nth (indexFalse c.cstate)).cstate ∈
              (c.flip_nth (indexFalse c.cstate)).states.dropLast
          · rw [dsF_succ_flip_repeat c n hsol ha' h2' h3]
            exact Or.inr rfl
          · rw [dsF_succ_flip_continue c n hsol ha' h2' h3]
            -- a real flip happened and produced a fresh state; the leftmost
            -- unhappy index strictly increased
            have hw1 : 1 ≤ c.flipw := by
              by_contra hcon
              have h0 : c.flipw = 0 := by omega
              apply h3
              rw [hflip]
              simp only [List.dropLast_concat]
              simpa [h0, flipRange_zero_width] using hmem
            have hlen' : (flipRange c.cstate (indexFalse c.cstate) c.flipw).length
                = c.cstate.length := flipRange_length _ _ _
            have hstep : indexFalse c.cstate + 1 ≤
                indexFalse (flipRange c.cstate (indexFalse c.cstate) c.flipw) := by
              apply le_indexFalse_of_getD
              · intro p hp
                rcases Nat.lt_or_ge p (indexFalse c.cstate) with hplt | hpge
                · rw [flipRange_getD c.cstate _ _ p (by omega)]
                  rw [if_neg (by omega)]
                  exact getD_of_lt_indexFalse c.cstate p hplt
                · have hpe : p = indexFalse c.cstate := by omega
                  rw [hpe, flipRange_getD c.cstate _ _ _ (by omega)]
                  rw [if_pos (by omega)]
                  rw [getD_indexFalse c.cstate ha']
                  rfl
              · omega
            apply ih
            · rw [hflip]
              simpa using hlen'.trans hlen
            · rw [hflip]
              simp
            · rw [hflip]
              exact hsol
            · rw [hflip]
              show c.npan - indexFalse (flipRange c.cstate (indexFalse c.cstate) c.flipw) < n
              omega

/-! ## Parity analysis of flip sequences

Flips commute and are involutions, so the final orientation of position `p`
only depends on the parity of the number of flips whose window covers `p`.
This yields both the impossibility argument (claims C1/C2) and the
minimality of the greedy flip count (claim C1). -/

theorem applyFlips_cons (w : Nat) (s : List Bool) (j : Nat) (ws : List Nat) :
    applyFlips w s (j :: ws) = applyFlips w (flipRange s j w) ws := rfl

theorem length_applyFlips (w : Nat) :
    ∀ (ws : List Nat) (s : List Bool), (applyFlips w s ws).length = s.length := by
  intro ws
  induction ws with
  | nil => intro s; rfl
  | cons j ws ih =>
    intro s
    show (applyFlips w (flipRange s j w) ws).length = s.length
    rw [ih, flipRange_length]

theorem applyFlips_getD (w : Nat) :
    ∀ (ws : List Nat) (s : List Bool) (p : Nat), p < s.length →
      (applyFlips w s ws).getD p false =
        if flipParity w ws p % 2 = 1 then !(s.getD p false) else s.getD p false := by
  intro ws
  induction ws with
  | nil =>
    intro s p hp
    simp [applyFlips, flipParity]
  | cons j ws ih =>
    intro s p hp
    have hp' : p < (flipRange s j w).length := by rw [flipRange_length]; exact hp
    have h1 : (applyFlips w s (j :: ws)).getD p false =
        if flipParity w ws p % 2 = 1 then !((flipRange s j w).getD p false)
        else (flipRange s j w).getD p false := ih (flipRange s j w) p hp'
    rw [h1, flipRange_getD s j w p hp]
    have hcons : flipParity w (j :: ws) p =
        flipParity w ws p + if j ≤ p ∧ p < j + w then 1 else 0 := by
      simp [flipParity, List.countP_cons]
    by_cases hc : j ≤ p ∧ p < j + w
    · rw [if_pos hc]
      have he : flipParity w (j :: ws) p = flipParity w ws p + 1 := by
        rw [hcons, if_pos hc]
      rw [he]
      by_cases hp2 : flipParity w ws p % 2 = 1
      · rw [if_pos hp2, if_neg (by omega)]
        simp
      · rw [if_neg hp2, if_pos (by omega)]
    · rw [if_neg hc]
      have he : flipParity w (j :: ws) p = flipParity w ws p := by
        rw [hcons, if_neg hc]
        omega
      rw [he]

theorem solves_parity (w : Nat) (s : List Bool) (ws : List Nat) (hs : Solves w s ws)
    (p : Nat) (hp : p < s.length) :
    flipParity w ws p % 2 = if s.getD p false = true then 0 else 1 := by
  have hlen := length_applyFlips w ws s
  have hall := all_getD_of_all _ hs.2 p (by rw [hlen]; exact hp)
  rw [applyFlips_getD w ws s p hp] at hall
  by_cases hp2 : flipParity w ws p % 2 = 1
  · rw [if_pos hp2] at hall
    have hg : s.getD p false = false := by
      cases hgg : s.getD p false
      · rfl
      · rw [hgg] at hall; simp at hall
    rw [hg]
    simpa using hp2
  · rw [if_neg hp2] at hall
    rw [hall]
    simp
    omega

theorem countP_eq_sum_count (q : Nat → Bool) (M : Nat) :
    ∀ ws : List Nat, (∀ x ∈ ws, q x = true → x < M) →
      ws.countP q = ∑ v ∈ Finset.range M, (if q v = true then ws.count v else 0) := by
  intro ws
  induction ws with
  | nil =>
    intro _
    rw [List.countP_nil]
    symm
    apply Finset.sum_eq_zero
    intro v _
    simp
  | cons a t ih =>
    intro h
    have ht : ∀ x ∈ t, q x = true → x < M := fun x hx => h x (List.mem_cons_of_mem a hx)
    rw [List.countP_cons, ih ht]
    have hterm : ∀ v ∈ Finset.range M,
        (if q v = true then (a :: t).count v else 0) =
          (if q v = true then t.count v else 0)
            + (if v = a then (if q a = true then 1 else 0) else 0) := by
      intro v _
      by_cases hv : v = a
      · subst hv
        by_cases hq : q v = true
        · simp [hq, List.count_cons]
        · simp [hq]
      · by_cases hq : q v = true
        · simp [hq, hv, List.count_cons, Ne.symm hv]
        · simp [hq, hv]
    rw [Finset.sum_congr rfl hterm, Finset.sum_add_distrib,
      Finset.sum_ite_eq' (Finset.range M) a (fun _ => if q a = true then 1 else 0)]
    by_cases hq : q a = true
    · have haM : a < M := h a (List.mem_cons_self a t) hq
      rw [if_pos (Finset.mem_range.mpr haM)]
    · simp [hq]

theorem length_eq_sum_count (M : Nat) :
    ∀ ws : List Nat, (∀ x ∈ ws, x < M) →
      ∑ v ∈ Finset.range M, ws.count v = ws.length := by
  intro ws
  induction ws with
  | nil => intro _; simp
  | cons a t ih =>
    intro h
    have ht : ∀ x ∈ t, x < M := fun x hx => h x (List.mem_cons_of_mem a hx)
    have hterm : ∀ v ∈ Finset.range M,
        (a :: t).count v = t.count v + if a = v then 1 else 0 := by
      intro v _
      simp [List.count_cons]
    rw [Finset.sum_congr rfl hterm, Finset.sum_add_distrib, ih ht,
      Finset.sum_ite_eq (Finset.range M) a (fun _ => 1),
      if_pos (Finset.mem_range.mpr (h a (List.mem_cons_self a t)))]
    simp

theorem flipParity_split (w : Nat) (hw : 1 ≤ w) (ws : List Nat) (j : Nat) :
    flipParity w ws j =
      (∑ v ∈ Finset.range j, (if (decide (v ≤ j ∧ j < v + w)) = true then ws.count v else 0))
        + ws.count j := by
  have h := countP_eq_sum_count (fun x => decide (x ≤ j ∧ j < x + w)) (j + 1) ws
    (fun x _ hx => by simp only [decide_eq_true_eq] at hx; omega)
  rw [flipParity, h, Finset.sum_range_succ]
  have hj : (decide (j ≤ j ∧ j < j + w)) = true := by
    simp only [decide_eq_true_eq]
    omega
  show (∑ v ∈ Finset.range j, if (decide (v ≤ j ∧ j < v + w)) = true then ws.count v else 0)
      + (if (decide (j ≤ j ∧ j < j + w)) = true then ws.count j else 0) = _
  rw [hj, if_pos rfl]

theorem sum_mod_two_congr (s : Finset Nat) (f g : Nat → Nat)
    (h : ∀ v ∈ s, f v % 2 = g v % 2) :
    (∑ v ∈ s, f v) % 2 = (∑ v ∈ s, g v) % 2 := by
  rw [Finset.sum_nat_mod s 2 f, Finset.sum_nat_mod s 2 g, Finset.sum_congr rfl h]

/-- Any two solving flip sequences use each valid leftmost index the same
number of times modulo 2: the parity of every start position is forced by
the initial state. -/
theorem solves_count_parity_eq (w : Nat) (hw : 1 ≤ w) (s : List Bool) (ws1 ws2 : List Nat)
    (h1 : Solves w s ws1) (h2 : Solves w s ws2) :
    ∀ j, j + w ≤ s.length → ws1.count j % 2 = ws2.count j % 2 := by
  intro j
  induction j using Nat.strong_induction_on with
  | _ j ih =>
    intro hj
    have hjlen : j < s.length := by omega
    have hc1 := solves_parity w s ws1 h1 j hjlen
    have hc2 := solves_parity w s ws2 h2 j hjlen
    rw [flipParity_split w hw ws1 j] at hc1
    rw [flipParity_split w hw ws2 j] at hc2
    have hsum :
        (∑ v ∈ Finset.range j, (if (decide (v ≤ j ∧ j < v + w)) = true then ws1.count v else 0)) % 2
        = (∑ v ∈ Finset.range j, (if (decide (v ≤ j ∧ j < v + w)) = true then ws2.count v else 0)) % 2 := by
      apply sum_mod_two_congr
      intro v hv
      have hvj : v < j := Finset.mem_range.mp hv
      by_cases hq : (decide (v ≤ j ∧ j < v + w)) = true
      · rw [if_pos hq, if_pos hq]
        by_cases hvw : v + w ≤ s.length
        · exact ih v hvj hvw
        · rw [List.count_eq_zero.mpr (fun hm => hvw (h1.1 v hm)),
            List.count_eq_zero.mpr (fun hm => hvw (h2.1 v hm))]
      · rw [if_neg hq, if_neg hq]
    by_cases hg : s.getD j false = true
    · rw [if_pos hg] at hc1 hc2
      omega
    · rw [if_neg hg] at hc1 hc2
      omega

/-- If every pancake strictly left of `idx` is already up and no in-range
flip start exists below `idx`, then any solving sequence uses every valid
start an even number of times. -/
theorem solves_count_even (w : Nat) (hw : 1 ≤ w) (s : List Bool) (ws : List Nat)
    (hs : Solves w s ws) (idx : Nat)
    (hup : ∀ p, p < idx → s.getD p false = true)
    (hvi : ∀ x, x + w ≤ s.length → x < idx) :
    ∀ j, j + w ≤ s.length → ws.count j % 2 = 0 := by
  intro j
  induction j using Nat.strong_induction_on with
  | _ j ih =>
    intro hj
    have hjlen : j < s.length := by omega
    have hjidx : j < idx := hvi j hj
    have hc := solves_parity w s ws hs j hjlen
    rw [hup j hjidx, if_pos rfl] at hc
    rw [flipParity_split w hw ws j] at hc
    have hzero : ∀ v ∈ Finset.range j,
        (if (decide (v ≤ j ∧ j < v + w)) = true then ws.count v else 0) % 2 = 0 := by
      intro v hv
      have hvj : v < j := Finset.mem_range.mp hv
      by_cases hq : (decide (v ≤ j ∧ j < v + w)) = true
      · rw [if_pos hq]
        by_cases hvw : v + w ≤ s.length
        · exact ih v hvj hvw
        · rw [List.count_eq_zero.mpr (fun hm => hvw (hs.1 v hm))]
      · rw [if_neg hq]
    have hsum :
        (∑ v ∈ Finset.range j, (if (decide (v ≤ j ∧ j < v + w)) = true then ws.count v else 0)) % 2
          = 0 := by
      rw [Finset.sum_nat_mod, Finset.sum_congr rfl hzero]
      simp
    omega

/-- When the leftmost face-down pancake is too close to the right edge for
any window to cover it, the state is unsolvable. -/
theorem unsolvable_of_edge (w : Nat) (hw : 1 ≤ w) (s : List Bool)
    (hall : s.all id = false) (hrange : s.length < indexFalse s + w) :
    ¬ ∃ ws, Solves w s ws := by
  rintro ⟨ws, hs⟩
  have hidx := indexFalse_lt_length s hall
  have hvi : ∀ x, x + w ≤ s.length → x < indexFalse s := by
    intro x hx
    omega
  have heven := solves_count_even w hw s ws hs (indexFalse s)
    (getD_of_lt_indexFalse s) hvi
  have hc := solves_parity w s ws hs (indexFalse s) hidx
  rw [getD_indexFalse s hall] at hc
  simp only [Bool.false_eq_true, if_false] at hc
  rw [flipParity_split w hw ws (indexFalse s)] at hc
  have hcount : ws.count (indexFalse s) = 0 :=
    List.count_eq_zero.mpr (fun hm => by have := hs.1 _ hm; omega)
  have hzero : ∀ v ∈ Finset.range (indexFalse s),
      (if (decide (v ≤ indexFalse s ∧ indexFalse s < v + w)) = true then ws.count v else 0) % 2
        = 0 := by
    intro v _
    by_cases hq : (decide (v ≤ indexFalse s ∧ indexFalse s < v + w)) = true
    · rw [if_pos hq]
      by_cases hvw : v + w ≤ s.length
      · exact heven v hvw
      · rw [List.count_eq_zero.mpr (fun hm => hvw (hs.1 v hm))]
    · rw [if_neg hq]
  have hsum :
      (∑ v ∈ Finset.range (indexFalse s),
        (if (decide (v ≤ indexFalse s ∧ indexFalse s < v + w)) = true then ws.count v else 0)) % 2
        = 0 := by
    rw [Finset.sum_nat_mod, Finset.sum_congr rfl hzero]
    simp
  omega

/-- Flipping a window inside the row preserves solvability in both
directions (each flip is its own inverse). -/
theorem solvable_flip_iff (w idx : Nat) (s : List Bool) (h : idx + w ≤ s.length) :
    (∃ ws, Solves w (flipRange s idx w) ws) ↔ ∃ ws, Solves w s ws := by
  have hlen : (flipRange s idx w).length = s.length := flipRange_length s idx w
  constructor
  · rintro ⟨ts, hval, hsol⟩
    refine ⟨idx :: ts, ?_, ?_⟩
    · intro x hx
      rcases List.mem_cons.mp hx with rfl | hx'
      · exact h
      · have := hval x hx'
        rw [hlen] at this
        exact this
    · exact hsol
  · rintro ⟨ts, hval, hsol⟩
    refine ⟨idx :: ts, ?_, ?_⟩
    · intro x hx
      rcases List.mem_cons.mp hx with rfl | hx'
      · rw [hlen]
        exact h
      · rw [hlen]
        exact hval x hx'
    · show (applyFlips w (flipRange (flipRange s idx w) idx w) ts).all id = true
      rw [flipRange_flipRange]
      exact hsol

/-- A solving sequence with pairwise increasing starts is at least as short
as any other solving sequence: its length is the number of odd forced
parities, a lower bound for every solution. -/
theorem greedy_min (w : Nat) (hw : 1 ≤ w) (s : List Bool) (wsg ws : List Nat)
    (hg : Solves w s wsg) (hpw : List.Pairwise (· < ·) wsg) (hs : Solves w s ws) :
    wsg.length ≤ ws.length := by
  have hnd : wsg.Nodup := hpw.imp Nat.ne_of_lt
  have hgb : ∀ x ∈ wsg, x < s.length := fun x hx => by
    have := hg.1 x hx
    omega
  have hsb : ∀ x ∈ ws, x < s.length := fun x hx => by
    have := hs.1 x hx
    omega
  have h1 : ∑ v ∈ Finset.range s.length, wsg.count v = wsg.length :=
    length_eq_sum_count _ _ hgb
  have h5 : ∑ v ∈ Finset.range s.length, ws.count v = ws.length :=
    length_eq_sum_count _ _ hsb
  have h2 : ∑ v ∈ Finset.range s.length, wsg.count v
      = ∑ v ∈ Finset.range s.length, wsg.count v % 2 := by
    apply Finset.sum_congr rfl
    intro v _
    have := List.nodup_iff_count_le_one.mp hnd v
    omega
  have h3 : ∀ v ∈ Finset.range s.length, wsg.count v % 2 = ws.count v % 2 := by
    intro v _
    by_cases hvw : v + w ≤ s.length
    · exact solves_count_parity_eq w hw s wsg ws hg hs v hvw
    · rw [List.count_eq_zero.mpr (fun hm => hvw (hg.1 v hm)),
        List.count_eq_zero.mpr (fun hm => hvw (hs.1 v hm))]
  have h4 : ∑ v ∈ Finset.range s.length, ws.count v % 2
      ≤ ∑ v ∈ Finset.range s.length, ws.count v :=
    Finset.sum_le_sum (fun v _ => Nat.mod_le _ _)
  calc wsg.length = ∑ v ∈ Finset.range s.length, wsg.count v % 2 := by rw [← h2, h1]
    _ = ∑ v ∈ Finset.range s.length, ws.count v % 2 := Finset.sum_congr rfl h3
    _ ≤ ∑ v ∈ Finset.range s.length, ws.count v := h4
    _ = ws.length := h5

/-- Execution characterization of the greedy loop (for a positive flipper
width): from any state satisfying the loop's invariants, the run performs a
strictly increasing sequence of in-range flips and ends either solved with
`solution = nflips`, or impossible with the current state provably
unsolvable.  The third invariant records that every stored snapshot other
than the current one has a strictly smaller leftmost-unhappy index, which is
what makes the repeat check fire only on the no-op path. -/
theorem dsF_run :
    ∀ (fuel : Nat) (c : Challenge),
      1 ≤ c.flipw →
      c.cstate.length = c.npan →
      c.cstate ∈ c.states →
      (∀ t ∈ c.states, t = c.cstate ∨ indexFalse t < indexFalse c.cstate) →
      c.solution = none →
      c.npan - indexFalse c.cstate < fuel →
      ∃ ws : List Nat,
        (∀ j ∈ ws, indexFalse c.cstate ≤ j ∧ j + c.flipw ≤ c.npan)
        ∧ List.Pairwise (· < ·) ws
        ∧ (Challenge.dumbsolverFuel fuel c).cstate = applyFlips c.flipw c.cstate ws
        ∧ (Challenge.dumbsolverFuel fuel c).nflips = c.nflips + ws.length
        ∧ (((Challenge.dumbsolverFuel fuel c).solution =
              some (((Challenge.dumbsolverFuel fuel c).nflips : Int))
            ∧ (Challenge.dumbsolverFuel fuel c).cstate.all id = true)
          ∨ ((Challenge.dumbsolverFuel fuel c).solution = some (-1)
            ∧ ¬ ∃ ts, Solves c.flipw c.cstate ts)) := by
  intro fuel
  induction fuel with
  | zero => intro c _ _ _ _ _ h; omega
  | succ n ih =>
    intro c hw hlen hmem hJ hsol hmeas
    by_cases ha : c.cstate.all id = true
    · rw [dsF_succ_solved c n hsol ha]
      exact ⟨[], by simp, List.Pairwise.nil, rfl, rfl, Or.inl ⟨rfl, ha⟩⟩
    · have ha' : c.cstate.all id = false := by
        cases h : c.cstate.all id
        · rfl
        · exact absurd h ha
      have hidxlt : indexFalse c.cstate < c.npan := by
        have := indexFalse_lt_length c.cstate ha'
        omega
      by_cases hr : c.npan < indexFalse c.cstate + c.flipw
      · -- the no-op path: flip falls off the edge, repeat fires, Impossible
        have hflip := flip_nth_out c (indexFalse c.cstate) hr
        have h2 : (c.flip_nth (indexFalse c.cstate)).cstate.all id = false := by
          rw [hflip]; exact ha'
        have h3 : (c.flip_nth (indexFalse c.cstate)).cstate ∈
            (c.flip_nth (indexFalse c.cstate)).states.dropLast := by
          rw [hflip]
          simpa [List.dropLast_concat] using hmem
        rw [dsF_succ_flip_repeat c n hsol ha' h2 h3]
        refine ⟨[], by simp, List.Pairwise.nil, by rw [hflip]; rfl, by rw [hflip]; rfl,
          Or.inr ⟨rfl, ?_⟩⟩
        exact unsolvable_of_edge c.flipw hw c.cstate ha' (by omega)
      · have hr' : indexFalse c.cstate + c.flipw ≤ c.npan := by omega
        have hflip := flip_nth_in c (indexFalse c.cstate) hr'
        have hlen' : (flipRange c.cstate (indexFalse c.cstate) c.flipw).length
            = c.cstate.length := flipRange_length _ _ _
        have htoggle : (flipRange c.cstate (indexFalse c.cstate) c.flipw).getD
            (indexFalse c.cstate) false = true := by
          rw [flipRange_getD c.cstate _ _ _ (by omega), if_pos (by omega),
            getD_indexFalse c.cstate ha']
          rfl
        have hstep : indexFalse c.cstate + 1 ≤
            indexFalse (flipRange c.cstate (indexFalse c.cstate) c.flipw) := by
          apply le_indexFalse_of_getD
          · intro p hp
            rcases Nat.lt_or_ge p (indexFalse c.cstate) with hplt | hpge
            · rw [flipRange_getD c.cstate _ _ p (by omega), if_neg (by omega)]
              exact getD_of_lt_indexFalse c.cstate p hplt
            · have hpe : p = indexFalse c.cstate := by omega
              rw [hpe]
              exact htoggle
          · omega
        by_cases h2 : (c.flip_nth (indexFalse c.cstate)).cstate.all id = true
        · rw [dsF_succ_flip_solved c n hsol ha' h2]
          refine ⟨[indexFalse c.cstate], ?_, List.pairwise_singleton _ _, ?_, ?_,
            Or.inl ⟨rfl, h2⟩⟩
          · intro j hj
            have : j = indexFalse c.cstate := by simpa using hj
            omega
          · rw [hflip]
            rfl
          · rw [hflip]
            rfl
        · have h2' : (c.flip_nth (indexFalse c.cstate)).cstate.all id = false := by
            cases h : (c.flip_nth (indexFalse c.cstate)).cstate.all id
            · rfl
            · exact absurd h h2
          by_cases h3 : (c.flip_nth (indexFalse c.cstate)).cstate ∈
              (c.flip_nth (indexFalse c.cstate)).states.dropLast
          · -- impossible under the invariant: the flipped state is fresh
            exfalso
            rw [hflip] at h3
            simp only [List.dropLast_concat] at h3
            rcases hJ _ h3 with heq | hlt
            · have hfalse := getD_indexFalse c.cstate ha'
              rw [heq] at htoggle
              rw [htoggle] at hfalse
              exact Bool.true_eq_false.mp hfalse
            · omega
          · rw [dsF_succ_flip_continue c n hsol ha' h2' h3]
            have hcst2 : (c.flip_nth (indexFalse c.cstate)).cstate
                = flipRange c.cstate (indexFalse c.cstate) c.flipw := by
              rw [hflip]
            have hnf2 : (c.flip_nth (indexFalse c.cstate)).nflips = c.nflips + 1 := by
              rw [hflip]
            have hst2 : (c.flip_nth (indexFalse c.cstate)).states
                = c.states ++ [flipRange c.cstate (indexFalse c.cstate) c.flipw] := by
              rw [hflip]
            obtain ⟨ws', hval', hpw', hcst', hnf', hdisj'⟩ :=
              ih (c.flip_nth (indexFalse c.cstate))
                (by rw [flip_nth_flipw]; exact hw)
                (by rw [hcst2, flip_nth_npan]; exact hlen'.trans hlen)
                (by rw [hcst2, hst2]; exact List.mem_append_right _ (by simp))
                (by
                  intro t ht
                  rw [hst2] at ht
                  rw [hcst2]
                  rcases List.mem_append.mp ht with htold | hnew
                  · right
                    rcases hJ t htold with rfl | hlt
                    · omega
                    · omega
                  · left
                    simpa using hnew)
                (by rw [flip_nth_solution]; exact hsol)
                (by rw [flip_nth_npan, hcst2]; omega)
            rw [hcst2, flip_nth_flipw, flip_nth_npan] at hval'
            rw [hcst2, flip_nth_flipw] at hcst'
            rw [hnf2] at hnf'
            rw [flip_nth_flipw, hcst2] at hdisj'
            refine ⟨indexFalse c.cstate :: ws', ?_, ?_, ?_, ?_, ?_⟩
            · intro j hj
              rcases List.mem_cons.mp hj with rfl | hj'
              · exact ⟨le_refl _, hr'⟩
              · have := hval' j hj'
                exact ⟨by omega, this.2⟩
            · refine List.Pairwise.cons ?_ hpw'
              intro j hj
              have := hval' j hj
              omega
            · rw [applyFlips_cons]
              exact hcst'
            · rw [hnf']
              simp only [List.length_cons]
              omega
            · rcases hdisj' with hok | ⟨hneg, hns⟩
              · exact Or.inl hok
              · refine Or.inr ⟨hneg, fun hsv => hns ?_⟩
                exact (solvable_flip_iff c.flipw (indexFalse c.cstate) c.cstate
                  (by omega)).mpr hsv

/-! ## Remaining helper lemmas for the claim theorems -/

theorem flip_nth_states (c : Challenge) (nth : Nat) :
    (c.flip_nth nth).states = c.states ++ [(c.flip_nth nth).cstate] := by
  unfold Challenge.flip_nth
  split <;> rfl

theorem isInitSeg_refl {α : Type} (l : List α) : isInitSeg l l :=
  ⟨[], by simp⟩

theorem isInitSeg_trans {α : Type} {l1 l2 l3 : List α}
    (h1 : isInitSeg l1 l2) (h2 : isInitSeg l2 l3) : isInitSeg l1 l3 := by
  obtain ⟨t1, rfl⟩ := h1
  obtain ⟨t2, rfl⟩ := h2
  exact ⟨t1 ++ t2, by simp⟩

/-- The snapshot list only ever grows: every run of the loop extends the
history, never rewrites it. -/
theorem dsF_states_isInitSeg :
    ∀ (fuel : Nat) (c : Challenge),
      isInitSeg c.states (Challenge.dumbsolverFuel fuel c).states := by
  intro fuel
  induction fuel with
  | zero => intro c; exact isInitSeg_refl _
  | succ n ihf =>
    intro c
    rcases hsol : c.solution with _ | v
    · by_cases ha : c.cstate.all id = true
      · rw [dsF_succ_solved c n hsol ha]
        exact isInitSeg_refl _
      · have ha' : c.cstate.all id = false := by
          cases h : c.cstate.all id
          · rfl
          · exact absurd h ha
        have hseg : isInitSeg c.states (c.flip_nth (indexFalse c.cstate)).states := by
          rw [flip_nth_states]
          exact ⟨_, rfl⟩
        by_cases h2 : (c.flip_nth (indexFalse c.cstate)).cstate.all id = true
        · rw [dsF_succ_flip_solved c n hsol ha' h2]
          exact hseg
        · have h2' : (c.flip_nth (indexFalse c.cstate)).cstate.all id = false := by
            cases h : (c.flip_nth (indexFalse c.cstate)).cstate.all id
            · rfl
            · exact absurd h h2
          by_cases h3 : (c.flip_nth (indexFalse c.cstate)).cstate ∈
              (c.flip_nth (indexFalse c.cstate)).states.dropLast
          · rw [dsF_succ_flip_repeat c n hsol ha' h2' h3]
            exact hseg
          · rw [dsF_succ_flip_continue c n hsol ha' h2' h3]
            exact isInitSeg_trans hseg (ihf _)
    · rw [dsF_of_terminal c (by simp [hsol]) (n + 1)]
      exact isInitSeg_refl _

theorem ofState_gt_facts (flipw : Nat) (s : List Bool) (h : s.length < flipw) :
    (Challenge.ofState flipw s).solution = (if s.all id = true then some 0 else some (-1))
    ∧ (Challenge.ofState flipw s).nflips = 0
    ∧ (Challenge.ofState flipw s).cstate = s
    ∧ (Challenge.ofState flipw s).states = [s]
    ∧ (Challenge.ofState flipw s).npan = s.length := by
  rw [ofState_eq, if_pos h]
  by_cases hall : s.all id = true
  · rw [if_pos hall]
    exact ⟨by simp [hall], rfl, rfl, rfl, rfl⟩
  · rw [if_neg hall]
    refine ⟨?_, rfl, rfl, rfl, rfl⟩
    have : s.all id = false := by
      cases hx : s.all id
      · rfl
      · exact absurd hx hall
    simp [this]

theorem signs2boolList_length (cs : List Char) (h : ∀ c ∈ cs, c = '+' ∨ c = '-') :
    (signs2boolList cs).length = cs.length := by
  induction cs with
  | nil => rfl
  | cons a t ih =>
    have ht : ∀ c ∈ t, c = '+' ∨ c = '-' := fun c hc => h c (List.mem_cons_of_mem a hc)
    rcases h a (List.mem_cons_self a t) with rfl | rfl
    · simp [signs2boolList, ih ht]
    · simp [signs2boolList, ih ht]

/-! ## Claim theorems -/

/-- C1: for every boolean orientation sequence of length `N ≥ 1` and every
flipper width `W` with `1 ≤ W ≤ N`, after the greedy solver runs to a
terminal outcome: if some finite sequence of in-range `W`-wide flips turns
all pancakes face up, the outcome is Solved with `solution = nflips` where
the flip count is minimal over all solving sequences (a solving sequence of
exactly that length exists, and no shorter one does); otherwise the outcome
is Impossible. -/
theorem dumbsolver_minimal (flipw : Nat) (s : List Bool)
    (hw1 : 1 ≤ flipw) (hwn : flipw ≤ s.length) :
    ((∃ ws, Solves flipw s ws) →
      ((Challenge.ofState flipw s).dumbsolver.solution =
          some (((Challenge.ofState flipw s).dumbsolver.nflips : Int))
        ∧ (Challenge.ofState flipw s).dumbsolver.cstate.all id = true
        ∧ (∃ ws, Solves flipw s ws
            ∧ ws.length = (Challenge.ofState flipw s).dumbsolver.nflips)
        ∧ (∀ ws, Solves flipw s ws →
            (Challenge.ofState flipw s).dumbsolver.nflips ≤ ws.length)))
    ∧ ((¬ ∃ ws, Solves flipw s ws) →
        (Challenge.ofState flipw s).dumbsolver.solution = some (-1)) := by
  have hof := ofState_of_le flipw s hwn
  have e1 : (Challenge.ofState flipw s).flipw = flipw := by simp [hof]
  have e2 : (Challenge.ofState flipw s).npan = s.length := by simp [hof]
  have e3 : (Challenge.ofState flipw s).cstate = s := by simp [hof]
  have e4 : (Challenge.ofState flipw s).states = [s] := by simp [hof]
  have e5 : (Challenge.ofState flipw s).nflips = 0 := by simp [hof]
  have e6 : (Challenge.ofState flipw s).solution = none := by simp [hof]
  obtain ⟨wsg, hval, hpw, hcst, hnf, hdisj⟩ :=
    dsF_run (2 ^ (Challenge.ofState flipw s).npan + 1) (Challenge.ofState flipw s)
      (by rw [e1]; exact hw1)
      (by rw [e3, e2])
      (by rw [e3, e4]; simp)
      (by
        rw [e4, e3]
        intro t ht
        simp only [List.mem_singleton] at ht
        exact Or.inl ht)
      e6
      (by
        rw [e2, e3]
        have := Nat.lt_two_pow s.length
        omega)
  rw [e3, e1, e2] at hval
  rw [e1, e3] at hcst
  rw [e5] at hnf
  rw [e1, e3] at hdisj
  have hds : (Challenge.ofState flipw s).dumbsolver =
      Challenge.dumbsolverFuel (2 ^ (Challenge.ofState flipw s).npan + 1)
        (Challenge.ofState flipw s) := rfl
  rw [hds]
  constructor
  · intro hsv
    rcases hdisj with ⟨hsol1, hall1⟩ | ⟨_, hns⟩
    · have hSolves : Solves flipw s wsg := by
        refine ⟨fun j hj => (hval j hj).2, ?_⟩
        rw [← hcst]
        exact hall1
      refine ⟨hsol1, hall1, ⟨wsg, hSolves, ?_⟩, ?_⟩
      · rw [hnf]
        omega
      · intro ws hws
        rw [hnf]
        have := greedy_min flipw hw1 s wsg ws hSolves hpw hws
        omega
    · exact absurd hsv hns
  · intro hns
    rcases hdisj with ⟨hsol1, hall1⟩ | ⟨hsol1, _⟩
    · exfalso
      apply hns
      refine ⟨wsg, fun j hj => (hval j hj).2, ?_⟩
      rw [← hcst]
      exact hall1
    · exact hsol1

/-- Witness for `dumbsolver_minimal`: one down pancake, width 1; the
solvable branch applies and the solver reports its own flip count. -/
theorem dumbsolver_minimal_witness :
    (Challenge.ofState 1 [false]).dumbsolver.solution =
      some (((Challenge.ofState 1 [false]).dumbsolver.nflips : Int)) := by
  have hsolv : ∃ ws, Solves 1 [false] ws := by
    refine ⟨[0], ?_, by decide⟩
    intro j hj
    simp only [List.mem_singleton] at hj
    rw [hj]
    decide
  exact ((dumbsolver_minimal 1 [false] (by decide) (by decide)).1 hsolv).1

/-- C2: for every initial orientation sequence and every width, the greedy
loop is terminal within `2 ^ N` iterations — it ends Solved (with the flip
count recorded and everything face-up) or Impossible — and running
`dumbsolver` to completion gives exactly that state. -/
theorem dumbsolver_terminates (flipw : Nat) (s : List Bool) :
    (((Challenge.dumbsolverFuel (2 ^ (Challenge.ofState flipw s).npan)
          (Challenge.ofState flipw s)).solution
        = some (((Challenge.dumbsolverFuel (2 ^ (Challenge.ofState flipw s).npan)
            (Challenge.ofState flipw s)).nflips : Int))
      ∧ (Challenge.dumbsolverFuel (2 ^ (Challenge.ofState flipw s).npan)
          (Challenge.ofState flipw s)).cstate.all id = true)
    ∨ (Challenge.dumbsolverFuel (2 ^ (Challenge.ofState flipw s).npan)
        (Challenge.ofState flipw s)).solution = some (-1))
    ∧ (Challenge.ofState flipw s).dumbsolver
        = Challenge.dumbsolverFuel (2 ^ (Challenge.ofState flipw s).npan)
            (Challenge.ofState flipw s) := by
  rcases le_or_lt flipw s.length with hle | hgt
  · have hof := ofState_of_le flipw s hle
    have hterm := dsF_term (2 ^ (Challenge.ofState flipw s).npan) (Challenge.ofState flipw s)
      (by simp [hof])
      (by simp [hof])
      (by simp [hof])
      (by
        simp only [hof]
        have := Nat.lt_two_pow s.length
        omega)
    refine ⟨hterm, ?_⟩
    have hne : (Challenge.dumbsolverFuel (2 ^ (Challenge.ofState flipw s).npan)
        (Challenge.ofState flipw s)).solution ≠ none := by
      rcases hterm with ⟨h, _⟩ | h
      · simp [h]
      · simp [h]
    exact dsF_mono (Challenge.ofState flipw s) (2 ^ (Challenge.ofState flipw s).npan)
      (2 ^ (Challenge.ofState flipw s).npan + 1) (by omega) hne
  · obtain ⟨h1, h2, h3, _, _⟩ := ofState_gt_facts flipw s hgt
    have hne : (Challenge.ofState flipw s).solution ≠ none := by
      rw [h1]
      split <;> simp
    have hfix : ∀ fuel, Challenge.dumbsolverFuel fuel (Challenge.ofState flipw s)
        = Challenge.ofState flipw s := dsF_of_terminal _ hne
    rw [hfix]
    refine ⟨?_, hfix _⟩
    by_cases hall : s.all id = true
    · left
      refine ⟨?_, by rw [h3]; exact hall⟩
      rw [h1, if_pos hall, h2]
      rfl
    · right
      rw [h1, if_neg hall]

/-- C3 (counterexample): the claim says an all-face-up construction with
`1 ≤ W ≤ N` yields Solved(0) immediately at construction; in the code the
constructor only runs the solved check when `W > N`, so after constructing
the all-up state `[true, true]` with width 2 the outcome is still
Unresolved, not Solved(0). -/
theorem ofState_allUp_counterexample :
    (Challenge.ofState 2 [true, true]).solution = none
    ∧ (Challenge.ofState 2 [true, true]).solution ≠ some 0 := by
  decide

/-- C3 (amended): for `1 ≤ W ≤ N` and an all-face-up initial state,
construction leaves the outcome Unresolved with `flipCount = 0`, one history
entry and no flip applied; the solved check runs at the top of the solver
loop instead, so running the solver then yields Solved(0) with no flip
applied and `flipCount` still 0. -/
theorem ofState_allUp_amended (flipw : Nat) (s : List Bool)
    (hall : s.all id = true) (hw : flipw ≤ s.length) :
    (Challenge.ofState flipw s).solution = none
    ∧ (Challenge.ofState flipw s).nflips = 0
    ∧ (Challenge.ofState flipw s).states = [s]
    ∧ (Challenge.ofState flipw s).dumbsolver.solution = some 0
    ∧ (Challenge.ofState flipw s).dumbsolver.nflips = 0
    ∧ (Challenge.ofState flipw s).dumbsolver.states = [s] := by
  have hof := ofState_of_le flipw s hw
  have hds : (Challenge.ofState flipw s).dumbsolver
      = { Challenge.ofState flipw s with
          solution := some (((Challenge.ofState flipw s).nflips : Int)) } :=
    dsF_succ_solved (Challenge.ofState flipw s)
      (2 ^ (Challenge.ofState flipw s).npan) (by simp [hof]) (by rw [hof]; exact hall)
  refine ⟨by simp [hof], by simp [hof], by simp [hof], ?_, ?_, ?_⟩
  · rw [hds]
    show some (((Challenge.ofState flipw s).nflips : Int)) = some 0
    simp [hof]
  · rw [hds]
    show (Challenge.ofState flipw s).nflips = 0
    simp [hof]
  · rw [hds]
    show (Challenge.ofState flipw s).states = [s]
    simp [hof]

/-- Witness for `ofState_allUp_amended` at the all-up state `[true, true]`
with width 2. -/
theorem ofState_allUp_amended_witness :
    (Challenge.ofState 2 [true, true]).solution = none
    ∧ (Challenge.ofState 2 [true, true]).dumbsolver.solution = some 0
    ∧ (Challenge.ofState 2 [true, true]).dumbsolver.nflips = 0 :=
  ⟨(ofState_allUp_amended 2 [true, true] (by decide) (by decide)).1,
   (ofState_allUp_amended 2 [true, true] (by decide) (by decide)).2.2.2.1,
   (ofState_allUp_amended 2 [true, true] (by decide) (by decide)).2.2.2.2.1⟩

/-- C4 (counterexample): the claim says the driving algorithm never invokes
the flip operation at a leftmost index `i` with `i + W > N`.  On the state
`[true, false]` with width 2 the solver's flip-invocation trace is `[1]`,
and `1 + W > N` there: the out-of-range flip is invoked (it is a no-op, and
the repeat check then forces Impossible). -/
theorem dumbsolver_invokes_out_of_range :
    (Challenge.dumbsolverFuelT (2 ^ (Challenge.ofState 2 [true, false]).npan + 1)
        (Challenge.ofState 2 [true, false]) []).2 = [1]
    ∧ (Challenge.ofState 2 [true, false]).npan
        < 1 + (Challenge.ofState 2 [true, false]).flipw := by
  decide

/-- C4 (amended): when the leftmost face-down index is too close to the
right edge (`i + W > N`), the solver does invoke the flip at `i` (the trace
records it), but that invocation is a no-op and the very same iteration
forces the outcome to Impossible: orientations and `flipCount` are
unchanged, history gains the unchanged snapshot, `solution` becomes `-1`. -/
theorem dumbsolver_out_of_range_noop (c : Challenge) (fuel : Nat) (t : List Nat)
    (hmem : c.cstate ∈ c.states) (hsol : c.solution = none)
    (hall : c.cstate.all id = false)
    (hrange : c.npan < indexFalse c.cstate + c.flipw) :
    Challenge.dumbsolverFuel (fuel + 1) c
        = { c with states := c.states ++ [c.cstate], solution := some (-1) }
    ∧ (Challenge.dumbsolverFuelT (fuel + 1) c t).2 = t ++ [indexFalse c.cstate] := by
  have hflip := flip_nth_out c (indexFalse c.cstate) hrange
  have h2 : (c.flip_nth (indexFalse c.cstate)).cstate.all id = false := by
    rw [hflip]
    exact hall
  have h3 : (c.flip_nth (indexFalse c.cstate)).cstate ∈
      (c.flip_nth (indexFalse c.cstate)).states.dropLast := by
    rw [hflip]
    simpa [List.dropLast_concat] using hmem
  constructor
  · rw [dsF_succ_flip_repeat c fuel hsol hall h2 h3, hflip]
  · rw [Challenge.dumbsolverFuelT]
    rw [if_pos hsol, is_solved_of_not_all c hall]
    simp [is_solved_of_not_all _ h2, h3]

/-- Witness for `dumbsolver_out_of_range_noop` on `[true, false]`, width 2:
the leftmost down index 1 is out of range, the iteration is a no-op plus
Impossible, and the trace records the invocation. -/
theorem dumbsolver_out_of_range_noop_witness :
    Challenge.dumbsolverFuel 1 (Challenge.ofState 2 [true, false])
        = { Challenge.ofState 2 [true, false] with
            states := (Challenge.ofState 2 [true, false]).states
              ++ [(Challenge.ofState 2 [true, false]).cstate],
            solution := some (-1) }
    ∧ (Challenge.dumbsolverFuelT 1 (Challenge.ofState 2 [true, false]) []).2
        = [] ++ [indexFalse (Challenge.ofState 2 [true, false]).cstate] :=
  dumbsolver_out_of_range_noop (Challenge.ofState 2 [true, false]) 0 []
    (by decide) (by decide) (by decide) (by decide)

/-- C5: when the flipper is wider than the row (`W > N`), construction alone
is terminal: Solved(0) if the row is already all up, Impossible otherwise;
no flip is ever attempted (`history` stays at its single entry) and
`flipCount` stays 0; running the solver changes nothing. -/
theorem ofState_wide_flipper (flipw : Nat) (s : List Bool) (h : s.length < flipw) :
    (s.all id = true → (Challenge.ofState flipw s).solution = some 0)
    ∧ (s.all id = false → (Challenge.ofState flipw s).solution = some (-1))
    ∧ (Challenge.ofState flipw s).nflips = 0
    ∧ (Challenge.ofState flipw s).states = [s]
    ∧ (Challenge.ofState flipw s).dumbsolver = Challenge.ofState flipw s := by
  obtain ⟨h1, h2, _, h4, _⟩ := ofState_gt_facts flipw s h
  have hne : (Challenge.ofState flipw s).solution ≠ none := by
    rw [h1]
    split <;> simp
  refine ⟨?_, ?_, h2, h4, dsF_of_terminal _ hne _⟩
  · intro hall
    rw [h1, if_pos hall]
  · intro hall
    rw [h1, if_neg (by simp [hall])]

/-- Witness for `ofState_wide_flipper` on `[false, false]` with width 3 (the
spec's own example: `"--"`, W = 3). -/
theorem ofState_wide_flipper_witness :
    (Challenge.ofState 3 [false, false]).solution = some (-1)
    ∧ (Challenge.ofState 3 [false, false]).nflips = 0
    ∧ (Challenge.ofState 3 [false, false]).dumbsolver
        = Challenge.ofState 3 [false, false] :=
  ⟨(ofState_wide_flipper 3 [false, false] (by decide)).2.1 (by decide),
   (ofState_wide_flipper 3 [false, false] (by decide)).2.2.1,
   (ofState_wide_flipper 3 [false, false] (by decide)).2.2.2.2⟩

/-- C6: an in-range flip (`nth + W ≤ N`) inverts exactly the `W` entries at
indices `nth..nth+W-1` and leaves every other entry unchanged, increments
`flipCount` by exactly 1, and appends exactly one history entry equal to the
post-flip orientation sequence. -/
theorem flip_nth_in_range_effect (c : Challenge) (nth p : Nat)
    (hlen : c.cstate.length = c.npan) (hr : nth + c.flipw ≤ c.npan) (hp : p < c.npan) :
    (c.flip_nth nth).nflips = c.nflips + 1
    ∧ (c.flip_nth nth).states = c.states ++ [(c.flip_nth nth).cstate]
    ∧ (c.flip_nth nth).cstate.length = c.npan
    ∧ (c.flip_nth nth).cstate.getD p false =
        (if nth ≤ p ∧ p < nth + c.flipw then !(c.cstate.getD p false)
         else c.cstate.getD p false) := by
  have hflip := flip_nth_in c nth hr
  refine ⟨by rw [hflip], flip_nth_states c nth, ?_, ?_⟩
  · rw [hflip]
    show (flipRange c.cstate nth c.flipw).length = c.npan
    rw [flipRange_length]
    exact hlen
  · rw [hflip]
    show (flipRange c.cstate nth c.flipw).getD p false = _
    exact flipRange_getD c.cstate nth c.flipw p (by omega)

/-- Witness for `flip_nth_in_range_effect`: the doctest scenario
`Challenge(2, '---')`, flip at 1, inspecting position 0. -/
theorem flip_nth_in_range_effect_witness :
    ((Challenge.ofState 2 [false, false, false]).flip_nth 1).nflips
        = (Challenge.ofState 2 [false, false, false]).nflips + 1
    ∧ ((Challenge.ofState 2 [false, false, false]).flip_nth 1).states
        = (Challenge.ofState 2 [false, false, false]).states
            ++ [((Challenge.ofState 2 [false, false, false]).flip_nth 1).cstate]
    ∧ ((Challenge.ofState 2 [false, false, false]).flip_nth 1).cstate.length
        = (Challenge.ofState 2 [false, false, false]).npan
    ∧ ((Challenge.ofState 2 [false, false, false]).flip_nth 1).cstate.getD 0 false =
        (if 1 ≤ 0 ∧ 0 < 1 + (Challenge.ofState 2 [false, false, false]).flipw
         then !((Challenge.ofState 2 [false, false, false]).cstate.getD 0 false)
         else (Challenge.ofState 2 [false, false, false]).cstate.getD 0 false) :=
  flip_nth_in_range_effect (Challenge.ofState 2 [false, false, false]) 1 0
    (by decide) (by decide) (by decide)

/-- C7: an out-of-range flip (`nth + W > N`) raises no error and is a pure
no-op on orientations and `flipCount`, while history still gains exactly one
entry equal to the unchanged orientation sequence. -/
theorem flip_nth_out_of_range_effect (c : Challenge) (nth : Nat)
    (h : c.npan < nth + c.flipw) :
    c.flip_nth nth = { c with states := c.states ++ [c.cstate] } :=
  flip_nth_out c nth h

/-- Witness for `flip_nth_out_of_range_effect`: two pancakes, width 3,
flip at index 0. -/
theorem flip_nth_out_of_range_effect_witness :
    (Challenge.ofState 3 [false, false]).flip_nth 0
      = { Challenge.ofState 3 [false, false] with
          states := (Challenge.ofState 3 [false, false]).states
            ++ [(Challenge.ofState 3 [false, false]).cstate] } :=
  flip_nth_out_of_range_effect (Challenge.ofState 3 [false, false]) 0 (by decide)

/-- C8: once the loop has set a terminal outcome, running it any further
changes nothing: `solution` keeps its value (the Unresolved → terminal
transition happens exactly once) and `orientations` is never mutated after
a terminal outcome is set. -/
theorem outcome_set_once (c : Challenge) (f g : Nat) (v : Int) (hfg : f ≤ g)
    (hv : (Challenge.dumbsolverFuel f c).solution = some v) :
    Challenge.dumbsolverFuel g c = Challenge.dumbsolverFuel f c
    ∧ (Challenge.dumbsolverFuel g c).solution = some v
    ∧ (Challenge.dumbsolverFuel g c).cstate = (Challenge.dumbsolverFuel f c).cstate := by
  have h := dsF_mono c f g hfg (by simp [hv])
  exact ⟨h, by rw [h, hv], by rw [h]⟩

/-- Witness for `outcome_set_once`: `[false]` with width 1 is terminal after
one iteration, and four further iterations change nothing. -/
theorem outcome_set_once_witness :
    Challenge.dumbsolverFuel 5 (Challenge.ofState 1 [false])
        = Challenge.dumbsolverFuel 1 (Challenge.ofState 1 [false])
    ∧ (Challenge.dumbsolverFuel 5 (Challenge.ofState 1 [false])).solution = some 1 :=
  ⟨(outcome_set_once (Challenge.ofState 1 [false]) 1 5 1 (by omega) (by decide)).1,
   (outcome_set_once (Challenge.ofState 1 [false]) 1 5 1 (by omega) (by decide)).2.1⟩

/-- C9: the sign parser works per character in order: `'+'` contributes
`true`, `'-'` contributes `false`, any other character is skipped; for input
of only `'+'`/`'-'` the parsed length equals the input length; and
`"+-+-+"` parses to `[true, false, true, false, true]`. -/
theorem signs2bool_spec (cs : List Char) (ch : Char) :
    signs2boolList ('+' :: cs) = true :: signs2boolList cs
    ∧ signs2boolList ('-' :: cs) = false :: signs2boolList cs
    ∧ (ch ≠ '+' → ch ≠ '-' → signs2boolList (ch :: cs) = signs2boolList cs)
    ∧ ((∀ c ∈ cs, c = '+' ∨ c = '-') → (signs2boolList cs).length = cs.length)
    ∧ signs2bool (String.mk ['+', '-', '+', '-', '+'])
        = [true, false, true, false, true] := by
  refine ⟨by simp [signs2boolList], by simp [signs2boolList], ?_,
    signs2boolList_length cs, by decide⟩
  intro h1 h2
  simp [signs2boolList, h1, h2]

/-- Witness for `signs2bool_spec` at `cs = ['-']`, `ch = '*'`. -/
theorem signs2bool_spec_witness :
    signs2boolList ('+' :: ['-']) = true :: signs2boolList ['-']
    ∧ signs2boolList ('-' :: ['-']) = false :: signs2boolList ['-']
    ∧ signs2boolList ('*' :: ['-']) = signs2boolList ['-']
    ∧ (signs2boolList ['-']).length = (['-'] : List Char).length
    ∧ signs2bool (String.mk ['+', '-', '+', '-', '+'])
        = [true, false, true, false, true] := by
  obtain ⟨w1, w2, w3, w4, w5⟩ := signs2bool_spec ['-'] '*'
  exact ⟨w1, w2, w3 (by decide) (by decide), w4 (by decide), w5⟩

/-- C10: the last history entry always equals the current orientation
sequence — after construction and after every flip, in-range or not — and
history entries are independent snapshots: any number of further flips or
solver iterations only appends to the history, never rewrites an existing
entry. -/
theorem history_snapshots (flipw : Nat) (s : List Bool) (c : Challenge)
    (nth fuel : Nat) :
    (Challenge.ofState flipw s).states.getLast?
        = some (Challenge.ofState flipw s).cstate
    ∧ (c.flip_nth nth).states.getLast? = some (c.flip_nth nth).cstate
    ∧ isInitSeg c.states (c.flip_nth nth).states
    ∧ isInitSeg c.states (Challenge.dumbsolverFuel fuel c).states := by
  refine ⟨?_, ?_, ?_, dsF_states_isInitSeg fuel c⟩
  · rw [ofState_eq]
    split
    · split <;> rfl
    · rfl
  · rw [flip_nth_states]
    exact List.getLast?_concat _
  · rw [flip_nth_states]
    exact ⟨_, rfl⟩
